import Mathlib

/-!
Shallow embedding of the trading-bot reference implementation
(src/src/main.rs).  Floating-point values are modelled as exact
rationals; the code's explicit `avg_loss == 0.0 → RS = +∞ → RSI = 100`
branch is embedded as an explicit conditional.  `f64::MIN` (the least
finite double, used as the fold seed in `volume_relative_high`) is
embedded as its exact rational value.
-/

/-- Delta of consecutive closes, `closes[i] - closes[i-1]` (the source only
reads it for `1 ≤ i < len`; out-of-range reads default to `0`). -/
def chg (closes : List ℚ) (i : ℕ) : ℚ :=
  closes.getD i 0 - closes.getD (i - 1) 0

/-- RSI value from smoothed averages, embedding
`let rs = if avg_loss == 0.0 { f64::INFINITY } else { avg_gain / avg_loss };
100.0 - 100.0 / (1.0 + rs)` — with `rs = +∞` the second term is `0`, so the
zero-loss branch returns exactly `100`. -/
def rsiVal (avg_gain avg_loss : ℚ) : ℚ :=
  if avg_loss = 0 then 100 else 100 - 100 / (1 + avg_gain / avg_loss)

/-- Loop body of `compute_rsi` for `i in (period + 1)..closes.len()`:
updates the Wilder averages and emits `Some(rsi)` for each index. -/
def rsiLoopAux (closes : List ℚ) (period : ℕ) :
    List ℕ → ℚ → ℚ → List (Option ℚ)
  | [], _, _ => []
  | i :: rest, avg_gain, avg_loss =>
    let change := chg closes i
    let gain := max change 0
    let loss := max (-change) 0
    let g := (avg_gain * ((period : ℚ) - 1) + gain) / (period : ℚ)
    let l := (avg_loss * ((period : ℚ) - 1) + loss) / (period : ℚ)
    some (rsiVal g l) :: rsiLoopAux closes period rest g l

/-- Warm-up accumulation step of `compute_rsi`
(`if change >= 0.0 { gains += change } else { losses -= change }`). -/
def seedStep (closes : List ℚ) (p : ℚ × ℚ) (i : ℕ) : ℚ × ℚ :=
  let c := chg closes i
  if 0 ≤ c then (p.1 + c, p.2) else (p.1, p.2 - c)

/-- Seed averages of `compute_rsi`: the warm-up sums over deltas
`1..=period`, each divided by `period`. -/
def seedAvg (closes : List ℚ) (period : ℕ) : ℚ × ℚ :=
  (((List.range' 1 period).foldl (seedStep closes) (0, 0)).1 / (period : ℚ),
   ((List.range' 1 period).foldl (seedStep closes) (0, 0)).2 / (period : ℚ))

/-- Embedding of `compute_rsi` (src/src/main.rs:34-57).  The imperative
version fills a `vec![None; len]`; here the result is assembled as
`period` leading `none`s, the seeded value at index `period`, then the
loop's values. -/
def compute_rsi (closes : List ℚ) (period : ℕ) : List (Option ℚ) :=
  if closes.length < period + 1 ∨ period = 0 then
    List.replicate closes.length none
  else
    List.replicate period none ++
      some (rsiVal (seedAvg closes period).1 (seedAvg closes period).2) ::
        rsiLoopAux closes period
          (List.range' (period + 1) (closes.length - (period + 1)))
          (seedAvg closes period).1 (seedAvg closes period).2

/-- Exact rational value of `f64::MIN`, the least finite IEEE-754 double,
`-(2 - 2^-52) * 2^1023 = -(2^53 - 1) * 2^971`, written as an explicit
integer numeral (see `f64MIN_eq`).  It seeds the max-fold in
`volume_relative_high`. -/
def f64MIN : ℚ := -179769313486231570814527423731704356798070567525844996598917476803157260780028538760589558632766878171540458953514382464234321326889464182768467546703537516986049910576551282076245490090389328944075868508455133942304583236903222948165808559332123348274797826204144723168738177180919299881250404026184124858368

/-- Embedding of `volume_relative_high` (src/src/main.rs:59-71): entry `i` is
`false` for `i < window`; otherwise it compares `volumes[i]` against the fold
of `fun acc v => if acc < v then v else acc` over `volumes[i-window..i)`
seeded with `f64::MIN`. -/
def volume_relative_high (volumes : List ℚ) (window : ℕ) : List Bool :=
  if volumes.isEmpty then []
  else
    (List.range volumes.length).map fun i =>
      if i < window then false
      else
        let slice := (volumes.drop (i - window)).take window
        let max_prev := slice.foldl (fun acc v => if acc < v then v else acc) f64MIN
        decide (max_prev < volumes.getD i 0)

/-- Embedding of chrono's `NaiveDate` as far as the engine observes it. -/
structure NaiveDate where
  year : Int
  month : Nat
  day : Nat
deriving Repr, DecidableEq

/-- Modelled from the spec: `NaiveDate::parse_from_str(date, "%Y-%m-%d")`
with `unwrap_or_else` fallback to `1970-01-01` is external chrono parsing
code not present in this repository.  The engine passes the parsed date only
to `ipo_lockup_screener_stub`, whose output is consumed by a closure that
ignores it, so the run is independent of the parsed value; the model returns
the documented fallback uniformly. -/
def parse_date_or_epoch (_s : String) : NaiveDate :=
  { year := 1970, month := 1, day := 1 }

/-- Embedding of `IpoInfo` (src/src/main.rs:73-77). -/
structure IpoInfo where
  symbol : String
  lockup_expiration_date : NaiveDate
deriving Repr, DecidableEq

/-- Embedding of `ipo_lockup_screener_stub` (src/src/main.rs:79-87): returns
the single hardcoded example entry whose lockup expires `today`. -/
def ipo_lockup_screener_stub (today : NaiveDate) : List IpoInfo :=
  [{ symbol := "DEMO", lockup_expiration_date := today }]

/-- Embedding of the `Ohlcv` record (src/src/main.rs:4-21); the `open` field
is renamed `open_p` because `open` is a Lean keyword. -/
structure Ohlcv where
  date : String
  open_p : ℚ
  high : ℚ
  low : ℚ
  close : ℚ
  volume : ℚ
deriving Repr, DecidableEq

instance : Inhabited Ohlcv := ⟨{ date := "", open_p := 0, high := 0, low := 0, close := 0, volume := 0 }⟩

/-- Embedding of `Trade` (src/src/main.rs:92-99). -/
structure Trade where
  entry_price : ℚ
  exit_price : Option ℚ
  quantity : ℚ
  entry_index : ℕ
  exit_index : Option ℕ
deriving Repr, DecidableEq

instance : Inhabited Trade := ⟨{ entry_price := 0, exit_price := none, quantity := 0, entry_index := 0, exit_index := none }⟩

/-- Embedding of `BacktestResult` (src/src/main.rs:101-107); `default` is
Rust's `#[derive(Default)]`. -/
structure BacktestResult where
  trades : List Trade
  total_pnl : ℚ
  wins : ℕ
  losses : ℕ
deriving Repr, DecidableEq

instance : Inhabited BacktestResult := ⟨{ trades := [], total_pnl := 0, wins := 0, losses := 0 }⟩

/-- Entry half of the loop body of `run_strategy` (src/src/main.rs:119-134):
the lockup screen, the `rsi[i] > 65` / `vol_high[i]` checks, and the opening
of a Short trade when flat and all three conditions hold. -/
def entryStep (ohlcv : List Ohlcv) (closes : List ℚ) (rsi : List (Option ℚ))
    (vol_high : List Bool) (cur : Option Trade) (i : ℕ) : Option Trade :=
  let today := parse_date_or_epoch (ohlcv.getD i default).date
  let ipos := ipo_lockup_screener_stub today
  let within_lockup_window := ipos.any fun _ => true
  let rsi_ok := ((rsi.getD i none).map fun v => decide (65 < v)).getD false
  let vol_ok := vol_high.getD i false
  if cur.isNone && rsi_ok && vol_ok && within_lockup_window then
    some { entry_price := closes.getD i 0, exit_price := none, quantity := 1,
           entry_index := i, exit_index := none }
  else cur

/-- Closing a trade at `price` / `idx` with the accounting shared by the
loop-body exit (src/src/main.rs:143-151) and the post-loop forced close
(src/src/main.rs:155-164): fill the exit fields, accumulate short PnL into
`total_pnl`, bump `wins` when `pnl >= 0.0` else `losses`, append. -/
def forceClose (res : BacktestResult) (tr : Trade) (price : ℚ) (idx : ℕ) :
    BacktestResult :=
  let pnl := (tr.entry_price - price) * tr.quantity
  { trades := res.trades ++
      [{ tr with exit_price := some price, exit_index := some idx }],
    total_pnl := res.total_pnl + pnl,
    wins := if 0 ≤ pnl then res.wins + 1 else res.wins,
    losses := if 0 ≤ pnl then res.losses else res.losses + 1 }

/-- Exit half of the loop body of `run_strategy` (src/src/main.rs:136-152):
when a position is open, close it on `rsi[i] < 55` or the 3% take-profit /
stop-loss levels, with the PnL and win/loss accounting of the source. -/
def exitStep (closes : List ℚ) (rsi : List (Option ℚ))
    (res : BacktestResult) (cur : Option Trade) (i : ℕ) :
    BacktestResult × Option Trade :=
  match cur with
  | none => (res, none)
  | some tr =>
    let rsi_val := rsi.getD i none
    let take_profit := tr.entry_price * (97 / 100 : ℚ)
    let stop_loss := tr.entry_price * (103 / 100 : ℚ)
    let price := closes.getD i 0
    let exit_signal := ((rsi_val.map fun v => decide (v < 55)).getD false)
      || decide (price ≤ take_profit) || decide (stop_loss ≤ price)
    if exit_signal then (forceClose res tr price i, none)
    else (res, some tr)

/-- Full loop body of `run_strategy` (src/src/main.rs:119-153): the entry
check followed by the exit check on the same bar. -/
def stratStep (ohlcv : List Ohlcv) (closes : List ℚ) (rsi : List (Option ℚ))
    (vol_high : List Bool) (st : BacktestResult × Option Trade) (i : ℕ) :
    BacktestResult × Option Trade :=
  exitStep closes rsi st.1 (entryStep ohlcv closes rsi vol_high st.2 i) i

/-- State after the full pass of `run_strategy` over all bar indices,
starting from `BacktestResult::default()` and no open position. -/
def stratFold (ohlcv : List Ohlcv) : BacktestResult × Option Trade :=
  (List.range ohlcv.length).foldl
    (stratStep ohlcv (ohlcv.map (·.close)) (compute_rsi (ohlcv.map (·.close)) 14)
      (volume_relative_high (ohlcv.map (·.volume)) 20))
    (default, none)

/-- Embedding of `run_strategy` (src/src/main.rs:109-168): precompute the
indicators, fold the per-bar entry/exit body over the indices, then
force-close any position left open at the last bar's close.  The `symbol`
parameter is only printed by the source, never read by the engine. -/
def run_strategy (ohlcv : List Ohlcv) (_symbol : String) : BacktestResult :=
  if ohlcv.isEmpty then default
  else
    match (stratFold ohlcv).2 with
    | none => (stratFold ohlcv).1
    | some tr =>
      forceClose (stratFold ohlcv).1 tr ((ohlcv.map (·.close)).getLastD 0)
        (ohlcv.length - 1)

/-! Specification-side definitions, written from the claim's words, to be
compared with the embedded source functions. -/

/-- Specification-side gain at index `i`: `gain_i = max(delta_i, 0)`. -/
def gain_at (closes : List ℚ) (i : ℕ) : ℚ := max (chg closes i) 0

/-- Specification-side loss at index `i`: `loss_i = max(-delta_i, 0)`. -/
def loss_at (closes : List ℚ) (i : ℕ) : ℚ := max (-(chg closes i)) 0

/-- Specification-side Wilder averages `(avg_gain, avg_loss)` at index `i`:
for `i ≤ period` the seed (sum of gains/losses over deltas `1..=period`,
divided by `period`); for `i > period` the recurrence
`avg = (avg*(period-1) + new)/period`. -/
def wilderAvg (closes : List ℚ) (period : ℕ) : ℕ → ℚ × ℚ
  | 0 =>
    (((List.range' 1 period).map (gain_at closes)).sum / (period : ℚ),
     ((List.range' 1 period).map (loss_at closes)).sum / (period : ℚ))
  | i + 1 =>
    if i + 1 ≤ period then
      (((List.range' 1 period).map (gain_at closes)).sum / (period : ℚ),
       ((List.range' 1 period).map (loss_at closes)).sum / (period : ℚ))
    else
      (((wilderAvg closes period i).1 * ((period : ℚ) - 1) + gain_at closes (i + 1)) / (period : ℚ),
       ((wilderAvg closes period i).2 * ((period : ℚ) - 1) + loss_at closes (i + 1)) / (period : ℚ))

/-- Proposition: the optional RSI cell holds a value strictly above `t`. -/
def rsiAbove (o : Option ℚ) (t : ℚ) : Prop := ∃ v, o = some v ∧ t < v

instance (o : Option ℚ) (t : ℚ) : Decidable (rsiAbove o t) :=
  match o with
  | none => isFalse (by simp [rsiAbove])
  | some v =>
    if h : t < v then isTrue ⟨v, rfl, h⟩
    else isFalse (by simp [rsiAbove]; exact le_of_not_lt h)

/-- Proposition: the optional RSI cell holds a value strictly below `t`. -/
def rsiBelow (o : Option ℚ) (t : ℚ) : Prop := ∃ v, o = some v ∧ v < t

instance (o : Option ℚ) (t : ℚ) : Decidable (rsiBelow o t) :=
  match o with
  | none => isFalse (by simp [rsiBelow])
  | some v =>
    if h : v < t then isTrue ⟨v, rfl, h⟩
    else isFalse (by simp [rsiBelow]; exact le_of_not_lt h)

/-- Short-convention PnL of a closed trade,
`(entry_price - exit_price) * quantity`. -/
def tradePnl (tr : Trade) : ℚ :=
  (tr.entry_price - tr.exit_price.getD 0) * tr.quantity

/-- Ledger invariant maintained by the simulation pass: after processing
bars `0..n`, every recorded trade is closed with sane indices below `n`,
win/loss counts add up to the ledger size, `total_pnl` is the short-side
sum over the ledger, trades are pairwise ordered, and any open position
was entered before `n`, strictly after every recorded exit. -/
def ledgerInv (n : ℕ) (st : BacktestResult × Option Trade) : Prop :=
  (∀ tr ∈ st.1.trades, tr.exit_price.isSome = true ∧
     ∃ e, tr.exit_index = some e ∧ tr.entry_index ≤ e ∧ e < n) ∧
  st.1.wins + st.1.losses = st.1.trades.length ∧
  st.1.total_pnl = (st.1.trades.map tradePnl).sum ∧
  List.Pairwise (fun a b => a.exit_index.getD 0 < b.entry_index) st.1.trades ∧
  (∀ tr, st.2 = some tr → tr.entry_index < n ∧
     ∀ p ∈ st.1.trades, p.exit_index.getD 0 < tr.entry_index)

/-- Concrete 22-bar series used to exercise `run_strategy`: strictly rising
closes keep RSI at 100, and the volume spike at bar 20 puts it above the
20-bar trailing maximum, so a short opens at bar 20 and is force-closed at
bar 21. -/
def demoBars : List Ohlcv :=
  (List.range 22).map fun i =>
    { date := "2024-01-01", open_p := 100 + i, high := 101 + i, low := 99 + i,
      close := 100 + i, volume := if i = 20 then 10 else 1 }

/-! Helper lemmas about the RSI embedding. -/

theorem rsiLoopAux_length (closes : List ℚ) (period : ℕ) (idxs : List ℕ) :
    ∀ g l : ℚ, (rsiLoopAux closes period idxs g l).length = idxs.length := by
  induction idxs with
  | nil => intro g l; rfl
  | cons i rest ih => intro g l; simp [rsiLoopAux, ih]

theorem compute_rsi_length (closes : List ℚ) (period : ℕ) :
    (compute_rsi closes period).length = closes.length := by
  unfold compute_rsi
  split
  · simp
  · rename_i h
    push_neg at h
    simp [rsiLoopAux_length]
    omega

theorem seed_fold_eq (closes : List ℚ) (idxs : List ℕ) :
    ∀ g l : ℚ,
      idxs.foldl (seedStep closes) (g, l) =
        (g + (idxs.map (gain_at closes)).sum,
         l + (idxs.map (loss_at closes)).sum) := by
  induction idxs with
  | nil => intro g l; simp
  | cons i rest ih =>
    intro g l
    rw [List.foldl_cons]
    by_cases hc : 0 ≤ chg closes i
    · rw [show seedStep closes (g, l) i = (g + chg closes i, l) from by
        simp [seedStep, hc]]
      rw [ih]
      have h1 : gain_at closes i = chg closes i := max_eq_left hc
      have h2 : loss_at closes i = 0 := max_eq_right (neg_nonpos.mpr hc)
      simp [h1, h2]
      ring
    · rw [show seedStep closes (g, l) i = (g, l - chg closes i) from by
        simp [seedStep, hc]]
      rw [ih]
      push_neg at hc
      have h1 : gain_at closes i = 0 := max_eq_right hc.le
      have h2 : loss_at closes i = -chg closes i :=
        max_eq_left (by linarith)
      simp [h1, h2]
      ring

theorem wilderAvg_seed (closes : List ℚ) (period : ℕ) :
    ∀ i, i ≤ period → wilderAvg closes period i =
      (((List.range' 1 period).map (gain_at closes)).sum / (period : ℚ),
       ((List.range' 1 period).map (loss_at closes)).sum / (period : ℚ)) := by
  intro i hi
  cases i with
  | zero => rfl
  | succ n => rw [wilderAvg, if_pos hi]

theorem wilderAvg_rec (closes : List ℚ) (period : ℕ) (m : ℕ) (hm : period ≤ m) :
    wilderAvg closes period (m + 1) =
      (((wilderAvg closes period m).1 * ((period : ℚ) - 1) + gain_at closes (m + 1)) / (period : ℚ),
       ((wilderAvg closes period m).2 * ((period : ℚ) - 1) + loss_at closes (m + 1)) / (period : ℚ)) := by
  rw [wilderAvg, if_neg (by omega)]

theorem seedAvg_eq_wilderAvg (closes : List ℚ) (period : ℕ) :
    seedAvg closes period = wilderAvg closes period period := by
  rw [wilderAvg_seed closes period period le_rfl]
  unfold seedAvg
  rw [seed_fold_eq]
  simp

theorem rsiLoopAux_spec (closes : List ℚ) (period : ℕ) (k : ℕ) :
    ∀ m, period ≤ m →
      rsiLoopAux closes period (List.range' (m + 1) k)
        (wilderAvg closes period m).1 (wilderAvg closes period m).2 =
      (List.range' (m + 1) k).map
        (fun i => some (rsiVal (wilderAvg closes period i).1
          (wilderAvg closes period i).2)) := by
  induction k with
  | zero => intro m hm; rfl
  | succ n ih =>
    intro m hm
    rw [List.range'_succ]
    have hg : ((wilderAvg closes period m).1 * ((period : ℚ) - 1) +
        max (chg closes (m + 1)) 0) / (period : ℚ) =
        (wilderAvg closes period (m + 1)).1 := by
      rw [wilderAvg_rec closes period m hm]
      simp [gain_at]
    have hl : ((wilderAvg closes period m).2 * ((period : ℚ) - 1) +
        max (-(chg closes (m + 1))) 0) / (period : ℚ) =
        (wilderAvg closes period (m + 1)).2 := by
      rw [wilderAvg_rec closes period m hm]
      simp [loss_at]
    simp only [rsiLoopAux, List.map_cons]
    rw [hg, hl]
    rw [show m + 1 + 1 = (m + 1) + 1 from rfl]
    rw [ih (m + 1) (by omega)]

/-- C7: `compute_rsi` output has the input's length; degenerate inputs
(`len < period + 1` or `period == 0`) give all-absent output, and otherwise
every index strictly below `period` is absent. -/
theorem compute_rsi_shape (closes : List ℚ) (period : ℕ) :
    (compute_rsi closes period).length = closes.length ∧
    ((closes.length < period + 1 ∨ period = 0) →
      ∀ x ∈ compute_rsi closes period, x = none) ∧
    (∀ i, i < period → i < closes.length →
      (compute_rsi closes period)[i]? = some none) := by
  refine ⟨compute_rsi_length closes period, ?_, ?_⟩
  · intro hdeg x hx
    unfold compute_rsi at hx
    rw [if_pos hdeg] at hx
    exact List.eq_of_mem_replicate hx
  · intro i hip hilen
    unfold compute_rsi
    split
    · rw [List.getElem?_replicate, if_pos hilen]
    · rw [List.getElem?_append_left (by simpa using hip),
        List.getElem?_replicate, if_pos hip]

/-- Witness for C7 at a concrete degenerate input. -/
theorem compute_rsi_shape_witness :
    (compute_rsi [(1 : ℚ), 2, 3] 14)[0]? = some none ∧
    (compute_rsi [(1 : ℚ), 2, 3] 14).length = 3 :=
  ⟨(compute_rsi_shape [(1 : ℚ), 2, 3] 14).2.2 0 (by norm_num) (by norm_num),
   (compute_rsi_shape [(1 : ℚ), 2, 3] 14).1⟩

/-- C1: on a valid input (`period ≥ 1`, `len ≥ period + 1`) every emitted RSI
value from index `period` on equals the value of the specification-side
Wilder recurrence `wilderAvg` (seed = sums of `max(±delta, 0)` over deltas
`1..=period` divided by `period`; recurrence
`avg = (avg*(period-1) + new)/period`), under the RSI formula with the
zero-loss-to-100 rule. -/
theorem compute_rsi_wilder (closes : List ℚ) (period : ℕ)
    (hp : 1 ≤ period) (hl : period + 1 ≤ closes.length) (i : ℕ)
    (hi1 : period ≤ i) (hi2 : i < closes.length) :
    (compute_rsi closes period)[i]? =
      some (some (rsiVal (wilderAvg closes period i).1 (wilderAvg closes period i).2)) := by
  unfold compute_rsi
  rw [if_neg (by omega)]
  rw [List.getElem?_append_right (by simpa using hi1)]
  simp only [List.length_replicate]
  rcases Nat.eq_or_lt_of_le hi1 with heq | hlt
  · subst heq
    rw [Nat.sub_self]
    simp only [List.getElem?_cons_zero]
    rw [seedAvg_eq_wilderAvg]
  · have hsub : i - period = (i - period - 1) + 1 := by omega
    rw [hsub]
    simp only [List.getElem?_cons_succ]
    rw [seedAvg_eq_wilderAvg, rsiLoopAux_spec closes period _ period le_rfl]
    rw [List.getElem?_map, List.getElem?_range' (period + 1) 1 (by omega)]
    simp only [Option.map_some']
    rw [show period + 1 + 1 * (i - period - 1) = i from by omega]

/-- Witness for C1 at a concrete input: three rising closes with `period = 1`
give RSI `100` at index `2`. -/
theorem compute_rsi_wilder_witness :
    (compute_rsi [(1 : ℚ), 2, 3] 1)[2]? = some (some 100) :=
  (compute_rsi_wilder [(1 : ℚ), 2, 3] 1 (by norm_num) (by norm_num) 2
    (by norm_num) (by norm_num)).trans (by with_unfolding_all decide)

theorem rsiVal_bounds (g l : ℚ) (hg : 0 ≤ g) (hl : 0 ≤ l) :
    0 ≤ rsiVal g l ∧ rsiVal g l ≤ 100 := by
  unfold rsiVal
  by_cases h : l = 0
  · rw [if_pos h]; norm_num
  · rw [if_neg h]
    have hrs : 0 ≤ g / l := div_nonneg hg hl
    have h1 : (1 : ℚ) ≤ 1 + g / l := by linarith
    have h2 : 100 / (1 + g / l) ≤ 100 := div_le_self (by norm_num) h1
    have h3 : 0 ≤ 100 / (1 + g / l) := div_nonneg (by norm_num) (by linarith)
    constructor <;> linarith

theorem rsiLoopAux_mem_bounds (closes : List ℚ) (period : ℕ) (hp : 1 ≤ period)
    (idxs : List ℕ) :
    ∀ g l : ℚ, 0 ≤ g → 0 ≤ l → ∀ x ∈ rsiLoopAux closes period idxs g l,
      ∃ v, x = some v ∧ 0 ≤ v ∧ v ≤ 100 := by
  induction idxs with
  | nil => intro g l _ _ x hx; simp [rsiLoopAux] at hx
  | cons i rest ih =>
    intro g l hg hl x hx
    have hper : (0 : ℚ) < (period : ℚ) := by exact_mod_cast hp
    have hper1 : (0 : ℚ) ≤ (period : ℚ) - 1 := by
      have : (1 : ℚ) ≤ (period : ℚ) := by exact_mod_cast hp
      linarith
    have hg' : 0 ≤ (g * ((period : ℚ) - 1) + max (chg closes i) 0) / (period : ℚ) :=
      div_nonneg (by positivity) hper.le
    have hl' : 0 ≤ (l * ((period : ℚ) - 1) + max (-(chg closes i)) 0) / (period : ℚ) :=
      div_nonneg (by positivity) hper.le
    simp only [rsiLoopAux, List.mem_cons] at hx
    rcases hx with hx | hx
    · exact ⟨_, hx, rsiVal_bounds _ _ hg' hl'⟩
    · exact ih _ _ hg' hl' x hx

theorem seedAvg_nonneg (closes : List ℚ) (period : ℕ) :
    0 ≤ (seedAvg closes period).1 ∧ 0 ≤ (seedAvg closes period).2 := by
  unfold seedAvg
  rw [seed_fold_eq]
  have hg : 0 ≤ ((List.range' 1 period).map (gain_at closes)).sum :=
    List.sum_nonneg (by
      intro x hx
      rcases List.mem_map.mp hx with ⟨j, _, rfl⟩
      exact le_max_right _ _)
  have hl : 0 ≤ ((List.range' 1 period).map (loss_at closes)).sum :=
    List.sum_nonneg (by
      intro x hx
      rcases List.mem_map.mp hx with ⟨j, _, rfl⟩
      exact le_max_right _ _)
  exact ⟨div_nonneg (by simpa using hg) (Nat.cast_nonneg _),
    div_nonneg (by simpa using hl) (Nat.cast_nonneg _)⟩

/-- C8: every defined value in the output of `compute_rsi` lies in
`[0, 100]`. -/
theorem compute_rsi_values_bounded (closes : List ℚ) (period : ℕ) (v : ℚ)
    (hmem : some v ∈ compute_rsi closes period) : 0 ≤ v ∧ v ≤ 100 := by
  unfold compute_rsi at hmem
  split at hmem
  · exact absurd (List.eq_of_mem_replicate hmem) (by simp)
  · rename_i h
    push_neg at h
    have hp : 1 ≤ period := Nat.one_le_iff_ne_zero.mpr h.2
    rcases List.mem_append.mp hmem with hx | hx
    · exact absurd (List.eq_of_mem_replicate hx) (by simp)
    · rcases List.mem_cons.mp hx with hx | hx
      · have hb := rsiVal_bounds _ _ (seedAvg_nonneg closes period).1
          (seedAvg_nonneg closes period).2
        have : v = rsiVal (seedAvg closes period).1 (seedAvg closes period).2 :=
          Option.some.inj hx
        rw [this]; exact hb
      · rcases rsiLoopAux_mem_bounds closes period hp _ _ _
          (seedAvg_nonneg closes period).1 (seedAvg_nonneg closes period).2
          _ hx with ⟨w, hw, hb⟩
        rcases Option.some.inj hw with rfl
        exact hb

/-- Witness for C8 at a concrete input: `compute_rsi [1, 2] 1` contains the
defined value `100`, which the theorem bounds within `[0, 100]`. -/
theorem compute_rsi_values_bounded_witness : 0 ≤ (100 : ℚ) ∧ (100 : ℚ) ≤ 100 :=
  compute_rsi_values_bounded [1, 2] 1 100 (by with_unfolding_all decide)

/-- C2: the entry half of the loop body opens a position at bar `i` exactly
when flat, `rsi[i] > 65` (an absent value failing the test), `vol_high[i]`
true, and the lockup predicate (always true through the stub) holds; the
opened position has `entry_price = closes[i]`, `quantity = 1`,
`entry_index = i`. -/
theorem run_strategy_entry_iff (ohlcv : List Ohlcv) (closes : List ℚ)
    (rsi : List (Option ℚ)) (vol_high : List Bool) (cur : Option Trade) (i : ℕ) :
    entryStep ohlcv closes rsi vol_high cur i =
      if cur = none ∧ rsiAbove (rsi.getD i none) 65 ∧ vol_high.getD i false = true ∧
          (ipo_lockup_screener_stub
            (parse_date_or_epoch (ohlcv.getD i default).date)).any (fun _ => true) = true
      then some { entry_price := closes.getD i 0, exit_price := none, quantity := 1,
                  entry_index := i, exit_index := none }
      else cur := by
  unfold entryStep
  refine if_congr ?_ rfl rfl
  rcases cur with _ | tr <;> rcases hr : rsi.getD i none with _ | v <;>
    simp [rsiAbove, hr, ipo_lockup_screener_stub]

/-- C3: the exit half of the loop body closes an open position (including
one opened on the same bar) exactly when `rsi[i] < 55` (absent value
failing the test) or the close is at/beyond the 3% take-profit or stop-loss
level; on close, exit fields are set to the bar's close and index, the
short PnL is accumulated, `wins`/`losses` updated, the trade appended, and
the slot cleared. -/
theorem run_strategy_exit_iff (closes : List ℚ) (rsi : List (Option ℚ))
    (res : BacktestResult) (tr : Trade) (i : ℕ) :
    exitStep closes rsi res (some tr) i =
      if rsiBelow (rsi.getD i none) 55 ∨
          closes.getD i 0 ≤ tr.entry_price * (97 / 100) ∨
          tr.entry_price * (103 / 100) ≤ closes.getD i 0
      then ({ trades := res.trades ++
                [{ tr with exit_price := some (closes.getD i 0), exit_index := some i }],
              total_pnl := res.total_pnl +
                (tr.entry_price - closes.getD i 0) * tr.quantity,
              wins := if 0 ≤ (tr.entry_price - closes.getD i 0) * tr.quantity
                then res.wins + 1 else res.wins,
              losses := if 0 ≤ (tr.entry_price - closes.getD i 0) * tr.quantity
                then res.losses else res.losses + 1 }, none)
      else (res, some tr) := by
  show (if _ then _ else _) = _
  refine if_congr ?_ rfl rfl
  rcases hr : rsi.getD i none with _ | v <;> simp [rsiBelow, hr, or_assoc]

/-! Helper lemmas about the volume indicator. -/

theorem f64MIN_eq : f64MIN = -((2 ^ 53 - 1) * 2 ^ 971) := by
  norm_num [f64MIN]

theorem foldl_max_lt_iff (x : ℚ) (s : List ℚ) :
    ∀ a : ℚ, s.foldl (fun acc v => if acc < v then v else acc) a < x ↔
      a < x ∧ ∀ v ∈ s, v < x := by
  induction s with
  | nil => intro a; simp
  | cons v t ih =>
    intro a
    rw [List.foldl_cons, ih]
    by_cases h : a < v
    · rw [if_pos h]
      constructor
      · rintro ⟨hvx, ht⟩
        exact ⟨lt_trans h hvx, by
          intro u hu
          rcases List.mem_cons.mp hu with rfl | hu
          · exact hvx
          · exact ht u hu⟩
      · rintro ⟨hax, ht⟩
        exact ⟨ht v (List.mem_cons_self v t), fun u hu => ht u (List.mem_cons_of_mem v hu)⟩
    · rw [if_neg h]
      push_neg at h
      constructor
      · rintro ⟨hax, ht⟩
        exact ⟨hax, by
          intro u hu
          rcases List.mem_cons.mp hu with rfl | hu
          · exact lt_of_le_of_lt h hax
          · exact ht u hu⟩
      · rintro ⟨hax, ht⟩
        exact ⟨hax, fun u hu => ht u (List.mem_cons_of_mem v hu)⟩

/-- C4: with `window ≥ 1` and (as for every finite double) all volumes at
least `f64::MIN`, the volume signal has the input's length, is `false`
below `window`, and at `i ≥ window` is true exactly when `volumes[i]`
strictly exceeds every element of the preceding `window`-slice (ties give
`false`). -/
theorem volume_relative_high_spec (volumes : List ℚ) (window : ℕ)
    (hw : 1 ≤ window) (hfin : ∀ v ∈ volumes, f64MIN ≤ v) :
    (volume_relative_high volumes window).length = volumes.length ∧
    (∀ i, i < window → i < volumes.length →
      (volume_relative_high volumes window)[i]? = some false) ∧
    (∀ i, window ≤ i → i < volumes.length →
      (volume_relative_high volumes window)[i]? =
        some (decide (∀ v ∈ (volumes.drop (i - window)).take window,
          v < volumes.getD i 0))) := by
  unfold volume_relative_high
  split
  · rename_i hemp
    rw [List.isEmpty_iff] at hemp
    subst hemp
    refine ⟨rfl, ?_, ?_⟩ <;> intro i _ hi <;> simp at hi
  · refine ⟨by simp, ?_, ?_⟩
    · intro i hiw hilen
      rw [List.getElem?_map, List.getElem?_range hilen]
      simp [hiw]
    · intro i hiw hilen
      rw [List.getElem?_map, List.getElem?_range hilen]
      simp only [Option.map_some']
      rw [if_neg (by omega)]
      congr 1
      have hslice : ∀ v ∈ (volumes.drop (i - window)).take window, f64MIN ≤ v := by
        intro v hv
        exact hfin v (List.mem_of_mem_drop (List.mem_of_mem_take hv))
      have hne : (volumes.drop (i - window)).take window ≠ [] := by
        have hlen : ((volumes.drop (i - window)).take window).length =
            min window (volumes.length - (i - window)) := by
          simp [List.length_take, List.length_drop]
        intro hcontra
        rw [hcontra] at hlen
        simp at hlen
        omega
      rcases List.exists_mem_of_ne_nil _ hne with ⟨v0, hv0⟩
      rw [decide_eq_decide]
      rw [foldl_max_lt_iff]
      constructor
      · rintro ⟨_, ht⟩; exact ht
      · intro ht
        exact ⟨lt_of_le_of_lt (hslice v0 hv0) (ht v0 hv0), ht⟩

/-- Witness for C4 at a concrete input: `[1, 2, 3]` with `window = 1` gives
a true signal at index `1` since `2 > 1`. -/
theorem volume_relative_high_spec_witness :
    (volume_relative_high [(1 : ℚ), 2, 3] 1)[1]? = some true := by
  have h := (volume_relative_high_spec [(1 : ℚ), 2, 3] 1 (by norm_num)
    (by
      intro v hv
      have hlt : f64MIN < 1 := by rw [f64MIN_eq]; norm_num
      fin_cases hv <;> linarith)).2.2 1 (by norm_num) (by norm_num)
  rw [h]
  norm_num

/-- C9 counterexample: with `window = 0` the output of
`volume_relative_high` is not all-false — on `[1]` the single entry is
`true`, because the empty slice's max-fold returns the `f64::MIN` seed and
`1 > f64::MIN`. -/
theorem volume_relative_high_window0_cex :
    ¬ (∀ b ∈ volume_relative_high [(1 : ℚ)] 0, b = false) := by
  intro hall
  have h1 : f64MIN < (1 : ℚ) := by rw [f64MIN_eq]; norm_num
  have h2 : volume_relative_high [(1 : ℚ)] 0 = [true] := by
    unfold volume_relative_high
    rw [if_neg (by simp)]
    simp [List.range_succ, h1]
  rw [h2] at hall
  simpa using hall true (by simp)

/-- C9 amended: with `window = 0` every entry `i` of
`volume_relative_high` equals `volumes[i] > f64::MIN` — all-true for
ordinary volume data, not all-false. -/
theorem volume_relative_high_window0 (volumes : List ℚ) :
    volume_relative_high volumes 0 =
      volumes.map fun v => decide (f64MIN < v) := by
  unfold volume_relative_high
  split
  · rename_i hemp
    rw [List.isEmpty_iff] at hemp
    subst hemp
    rfl
  · apply List.ext_getElem?
    intro n
    rcases Nat.lt_or_ge n volumes.length with hn | hn
    · rw [List.getElem?_map, List.getElem?_map, List.getElem?_range hn,
        List.getElem?_eq_getElem hn]
      simp [List.getD_eq_getElem?_getD, List.getElem?_eq_getElem hn]
    · rw [List.getElem?_map, List.getElem?_map,
        List.getElem?_eq_none (by simpa using hn),
        List.getElem?_eq_none (by simpa [List.length_range] using hn)]
      rfl

/-! Ledger invariant lemmas for the strategy simulator. -/

theorem ledgerInv_mono (n m : ℕ) (hnm : n ≤ m) (st : BacktestResult × Option Trade)
    (h : ledgerInv n st) : ledgerInv m st := by
  obtain ⟨h1, h2, h3, h4, h5⟩ := h
  refine ⟨?_, h2, h3, h4, ?_⟩
  · intro tr htr
    obtain ⟨hp, e, he, hee, hen⟩ := h1 tr htr
    exact ⟨hp, e, he, hee, lt_of_lt_of_le hen hnm⟩
  · intro tr htr
    obtain ⟨hen, hprev⟩ := h5 tr htr
    exact ⟨lt_of_lt_of_le hen hnm, hprev⟩

theorem ledgerInv_close (n : ℕ) (res : BacktestResult) (tr : Trade)
    (price : ℚ) (idx : ℕ) (h : ledgerInv n (res, some tr))
    (hidx : tr.entry_index ≤ idx) (hidxn : idx < n) :
    ledgerInv n (forceClose res tr price idx, none) := by
  obtain ⟨h1, h2, h3, h4, h5⟩ := h
  obtain ⟨hen, hprev⟩ := h5 tr rfl
  dsimp only at h1 h2 h3 h4 hprev
  dsimp only [forceClose]
  refine ⟨?_, ?_, ?_, ?_, ?_⟩
  · intro p hp
    rcases List.mem_append.mp hp with hp | hp
    · exact h1 p hp
    · rcases List.mem_singleton.mp hp with rfl
      exact ⟨rfl, idx, rfl, hidx, hidxn⟩
  · rw [List.length_append]
    split <;> simp only [List.length_singleton] <;> omega
  · simp only [List.map_append, List.sum_append, List.map_cons, List.map_nil,
      List.sum_cons, List.sum_nil]
    rw [h3]
    simp [tradePnl]
  · rw [List.pairwise_append]
    refine ⟨h4, List.pairwise_singleton _ _, ?_⟩
    intro a ha b hb
    rcases List.mem_singleton.mp hb with rfl
    exact hprev a ha
  · intro p hp
    exact absurd hp (by simp)

theorem ledgerInv_entryStep (ohlcv : List Ohlcv) (closes : List ℚ)
    (rsi : List (Option ℚ)) (vol_high : List Bool) (n : ℕ)
    (st : BacktestResult × Option Trade) (h : ledgerInv n st) :
    ledgerInv (n + 1) (st.1, entryStep ohlcv closes rsi vol_high st.2 n) := by
  have h' := ledgerInv_mono n (n + 1) (by omega) st h
  obtain ⟨h1, h2, h3, h4, h5⟩ := h'
  refine ⟨h1, h2, h3, h4, ?_⟩
  intro tr htr
  replace htr : entryStep ohlcv closes rsi vol_high st.2 n = some tr := htr
  unfold entryStep at htr
  dsimp only at htr
  split at htr
  · rcases Option.some.inj htr with rfl
    refine ⟨Nat.lt_succ_self n, ?_⟩
    intro p hp
    obtain ⟨_, e, he, _, hen⟩ := h.1 p hp
    rw [he]
    exact hen
  · exact h5 tr htr

theorem ledgerInv_exitStep (closes : List ℚ) (rsi : List (Option ℚ)) (n : ℕ)
    (res : BacktestResult) (cur : Option Trade)
    (h : ledgerInv (n + 1) (res, cur)) :
    ledgerInv (n + 1) (exitStep closes rsi res cur n) := by
  rcases cur with _ | tr
  · exact h
  · have heq : exitStep closes rsi res (some tr) n =
        if ((rsi.getD n none).map fun v => decide (v < 55)).getD false
            || decide (closes.getD n 0 ≤ tr.entry_price * (97 / 100))
            || decide (tr.entry_price * (103 / 100) ≤ closes.getD n 0)
        then (forceClose res tr (closes.getD n 0) n, none)
        else (res, some tr) := rfl
    rw [heq]
    split
    · have hen := (h.2.2.2.2 tr rfl).1
      exact ledgerInv_close (n + 1) res tr _ n h (by omega) (Nat.lt_succ_self n)
    · exact h

theorem ledgerInv_stratFold (ohlcv : List Ohlcv) :
    ledgerInv ohlcv.length (stratFold ohlcv) := by
  unfold stratFold
  generalize ohlcv.length = n
  induction n with
  | zero =>
    refine ⟨?_, rfl, ?_, ?_, ?_⟩ <;> simp [default]
  | succ n ih =>
    rw [List.range_succ, List.foldl_append, List.foldl_cons, List.foldl_nil]
    exact ledgerInv_exitStep _ _ n _ _
      (ledgerInv_entryStep _ _ _ _ n _ ih)

theorem run_strategy_ledger (ohlcv : List Ohlcv) (symbol : String) :
    (∀ tr ∈ (run_strategy ohlcv symbol).trades, tr.exit_price.isSome = true ∧
      ∃ e, tr.exit_index = some e ∧ tr.entry_index ≤ e ∧ e < ohlcv.length) ∧
    (run_strategy ohlcv symbol).wins + (run_strategy ohlcv symbol).losses =
      (run_strategy ohlcv symbol).trades.length ∧
    (run_strategy ohlcv symbol).total_pnl =
      ((run_strategy ohlcv symbol).trades.map tradePnl).sum ∧
    List.Pairwise (fun a b => a.exit_index.getD 0 < b.entry_index)
      (run_strategy ohlcv symbol).trades := by
  unfold run_strategy
  split
  · refine ⟨?_, rfl, ?_, ?_⟩ <;> simp [default]
  · rename_i hemp
    have hinv := ledgerInv_stratFold ohlcv
    rcases hst : (stratFold ohlcv).2 with _ | tr
    · exact ⟨hinv.1, hinv.2.1, hinv.2.2.1, hinv.2.2.2.1⟩
    · have hlen : 1 ≤ ohlcv.length := by
        rcases ohlcv with _ | ⟨b, bs⟩
        · simp at hemp
        · simp
      have hpair : ledgerInv ohlcv.length ((stratFold ohlcv).1, some tr) := by
        rw [← hst]
        exact hinv
      have hen := (hpair.2.2.2.2 tr rfl).1
      have hclosed := ledgerInv_close ohlcv.length (stratFold ohlcv).1 tr
        ((ohlcv.map (·.close)).getLastD 0) (ohlcv.length - 1) hpair
        (by omega) (by omega)
      exact ⟨hclosed.1, hclosed.2.1, hclosed.2.2.1, hclosed.2.2.2.1⟩

/-- C5: the returned ledger contains no trade with an absent exit price
(a dangling position is force-closed at the last bar's close with the same
accounting), and `wins + losses` equals the number of trades. -/
theorem run_strategy_no_open_trades (ohlcv : List Ohlcv) (symbol : String) :
    (∀ tr ∈ (run_strategy ohlcv symbol).trades, tr.exit_price.isSome = true) ∧
    (run_strategy ohlcv symbol).wins + (run_strategy ohlcv symbol).losses =
      (run_strategy ohlcv symbol).trades.length :=
  ⟨fun tr h => ((run_strategy_ledger ohlcv symbol).1 tr h).1,
   (run_strategy_ledger ohlcv symbol).2.1⟩

set_option maxRecDepth 40000 in
/-- Witness for C5 on the concrete `demoBars` run, whose ledger holds one
force-closed trade. -/
theorem run_strategy_no_open_trades_witness :
    ((run_strategy demoBars "DEMO").trades.getD 0 default).exit_price.isSome = true ∧
    (run_strategy demoBars "DEMO").wins + (run_strategy demoBars "DEMO").losses =
      (run_strategy demoBars "DEMO").trades.length :=
  ⟨(run_strategy_no_open_trades demoBars "DEMO").1 _ (by with_unfolding_all decide),
   (run_strategy_no_open_trades demoBars "DEMO").2⟩

/-- C6: `total_pnl` of the returned result equals the short-convention sum
`(entry_price - exit_price) * quantity` over all trades in its ledger. -/
theorem run_strategy_total_pnl_eq (ohlcv : List Ohlcv) (symbol : String) :
    (run_strategy ohlcv symbol).total_pnl =
      ((run_strategy ohlcv symbol).trades.map tradePnl).sum :=
  (run_strategy_ledger ohlcv symbol).2.2.1

/-- C10: every trade in the returned ledger is closed at an exit index
between its entry index and the bar count (exclusive), and the ledger is
pairwise ordered: any later trade's entry index strictly exceeds any
earlier trade's exit index. -/
theorem run_strategy_trades_ordered (ohlcv : List Ohlcv) (symbol : String) :
    (∀ tr ∈ (run_strategy ohlcv symbol).trades,
      ∃ e, tr.exit_index = some e ∧ tr.entry_index ≤ e ∧ e < ohlcv.length) ∧
    List.Pairwise (fun a b => a.exit_index.getD 0 < b.entry_index)
      (run_strategy ohlcv symbol).trades :=
  ⟨fun tr h => ((run_strategy_ledger ohlcv symbol).1 tr h).2,
   (run_strategy_ledger ohlcv symbol).2.2.2⟩

set_option maxRecDepth 40000 in
/-- Witness for C10 on the concrete `demoBars` run: its single trade enters
at bar 20 and exits at bar 21 of 22. -/
theorem run_strategy_trades_ordered_witness :
    ∃ e, ((run_strategy demoBars "DEMO").trades.getD 0 default).exit_index = some e ∧
      ((run_strategy demoBars "DEMO").trades.getD 0 default).entry_index ≤ e ∧
      e < demoBars.length :=
  (run_strategy_trades_ordered demoBars "DEMO").1 _ (by with_unfolding_all decide)
